import Mathlib

/-!
chess_viewer: position ingestion (`src/main.c`).

A shallow embedding of the FEN ingestion path of `src/main.c`: the two-pass
parser `fen_to_grid`, the PCRE validator compiled in `server_thread`, the
receive loop of `server_thread`, and the colour / piece lookup of the render
loop in `main`.

Modelling conventions.

* A C `char` is a Lean `Char`; a C string is the `List Char` of the bytes
  before its terminating NUL.
* `static char grid[64]` is a map `Nat → Char` from the index used in
  `grid[cur_row * 8 + cur_col]` to the stored byte.  Indices `≥ 64` lie
  outside the array; the model keeps them, together with a trace of every
  index stored to, so that a store past the end of the array stays
  observable.
* `fen_total` is an `int`.  It grows by at most 8 per input byte, so it stays
  far below `2^31` for every string that fits the 1024-byte receive buffer;
  it is modelled as a `Nat`.
-/

namespace ChessViewer

/-! ## The parser `fen_to_grid` (main.c, lines 26, 81-157) -/

/-- The macro `DEFAULT_FEN`. -/
def DEFAULT_FEN : List Char := "rnbqkbnr/pppppppp/8/8/8/8/PPPPPPPP/RNBQKBNR".toList

/-- The table `valid_fen_chars`. -/
def valid_fen_chars : List Char :=
  ['p', 'r', 'n', 'b', 'k', 'q', 'P', 'R', 'N', 'B', 'K', 'Q']

/-- The test `c >= '1' && c <= '8'`, on character codes. -/
def is_digit18 (c : Char) : Bool := decide (49 ≤ c.toNat) && decide (c.toNat ≤ 56)

/-- The inner loop of pass 1: `is_valid` is set when `c` equals one of the twelve
entries of `valid_fen_chars`. -/
def is_valid (c : Char) : Bool := valid_fen_chars.contains c

/-- Contents of `grid`, indexed as in `grid[cur_row * 8 + cur_col]`. -/
abbrev Grid := Nat → Char

/-- The memory `fen_to_grid` acts on: the cells of `grid` and the trace of the
indices stored to, most recent first. -/
structure Mem where
  grid : Grid
  stores : List Nat

/-- The statement `grid[idx] = c`. -/
def Mem.store (m : Mem) (idx : Nat) (c : Char) : Mem :=
  { grid := fun i => if i = idx then c else m.grid i, stores := idx :: m.stores }

/-- Outcome of the first loop of `fen_to_grid`. -/
inductive Pass1 where
  | invalid (c : Char)
  | total (fen_total : Nat)
  deriving DecidableEq, Repr

/-- The first loop of `fen_to_grid` (lines 94-119), started with the running value of
`fen_total`.  It stops at the first space or newline, skips `/`, adds the value of a
digit `1`-`8`, adds one for a piece letter and reports any other character. -/
def pass1 : List Char → Nat → Pass1
  | [], fen_total => .total fen_total
  | c :: cs, fen_total =>
    if c = ' ' ∨ c = '\n' then .total fen_total
    else if c = '/' then pass1 cs fen_total
    else if is_digit18 c then pass1 cs (fen_total + (c.toNat - 48))
    else if is_valid c then pass1 cs (fen_total + 1)
    else .invalid c

/-- The loop `for (j = 0; j < v; ++j) grid[cur_row * 8 + cur_col++] = 'X'`; returns the
memory and the new `cur_col`. -/
def fill_empty : Nat → Nat → Nat → Mem → Mem × Nat
  | 0, _, cur_col, m => (m, cur_col)
  | v + 1, cur_row, cur_col, m =>
    fill_empty v cur_row (cur_col + 1) (m.store (cur_row * 8 + cur_col) 'X')

/-- The second loop of `fen_to_grid` (lines 125-145).  It stops at the first space only;
`/` moves to the next row, a digit `1`-`8` stores that many `'X'`, and every other
character is stored as it is. -/
def pass2 : List Char → Nat → Nat → Mem → Mem
  | [], _, _, m => m
  | c :: cs, cur_row, cur_col, m =>
    if c = ' ' then m
    else if c = '/' then pass2 cs (cur_row + 1) 0 m
    else if is_digit18 c then
      let r := fill_empty (c.toNat - 48) cur_row cur_col m
      pass2 cs cur_row r.2 r.1
    else pass2 cs cur_row (cur_col + 1) (m.store (cur_row * 8 + cur_col) c)

/-- The function `fen_to_grid`.  The first argument bounds the depth of the recursive
calls `fen_to_grid(DEFAULT_FEN)`; `none` means the bound was reached.  On an invalid
character the function parses `DEFAULT_FEN` and returns.  When `fen_total < 64` it parses
`DEFAULT_FEN` and then goes on to the second loop over `fen`. -/
def fen_to_grid : Nat → List Char → Mem → Option Mem
  | 0, _, _ => none
  | fuel + 1, fen, m =>
    match pass1 fen 0 with
    | .invalid _ => fen_to_grid fuel DEFAULT_FEN m
    | .total fen_total =>
      if fen_total < 64 then
        (fen_to_grid fuel DEFAULT_FEN m).map (pass2 fen 0 0)
      else some (pass2 fen 0 0 m)

/-- The 64 cells of the array after a call, as a list. -/
def Mem.cells (m : Mem) : List Char := (List.range 64).map m.grid

/-- The call `fen_to_grid(fen)` as a total function: two levels of calls always suffice,
because the recursive call is on `DEFAULT_FEN`, whose first loop ends with
`fen_total = 64` (see `fen_to_grid_returns`). -/
def run_fen_to_grid (fen : List Char) (m : Mem) : Mem :=
  match fen_to_grid 2 fen m with
  | some r => r
  | none => m

/-! ## The validator (main.c, lines 195 and 224)

`pcre_compile("^([prbnqk1-8]+\/?){8}.*$", PCRE_CASELESS, ...)` and
`pcre_exec(re, NULL, buf, read, 0, 0, offsets, 8) > 0`.  The pattern is matched as a
backtracking matcher does: every sub-pattern returns the list of inputs that may remain
after it, so the whole pattern matches exactly when some choice of the repetitions
succeeds.  `^` pins the match to the first byte, `.` matches every byte but the newline,
and `$` holds at the end of the subject or just before a newline that ends it. -/

/-- The class `[prbnqk1-8]` under `PCRE_CASELESS`. -/
def re_class (c : Char) : Bool :=
  ['p', 'r', 'b', 'n', 'q', 'k', 'P', 'R', 'B', 'N', 'Q', 'K'].contains c || is_digit18 c

/-- Remainders after `[prbnqk1-8]+`. -/
def re_plus : List Char → List (List Char)
  | [] => []
  | c :: cs => if re_class c then cs :: re_plus cs else []

/-- Remainders after `\/?`. -/
def re_opt_slash : List Char → List (List Char)
  | [] => [[]]
  | c :: cs => if c = '/' then [cs, c :: cs] else [c :: cs]

/-- Remainders after one group `([prbnqk1-8]+\/?)`. -/
def re_group (s : List Char) : List (List Char) := (re_plus s).flatMap re_opt_slash

/-- Remainders after `([prbnqk1-8]+\/?){n}`. -/
def re_groups : Nat → List Char → List (List Char)
  | 0, s => [s]
  | n + 1, s => (re_group s).flatMap (re_groups n)

/-- Remainders after `.*`. -/
def re_dot_star : List Char → List (List Char)
  | [] => [[]]
  | c :: cs => (c :: cs) :: (if c = '\n' then [] else re_dot_star cs)

/-- The assertion `$`. -/
def re_dollar (s : List Char) : Bool := decide (s = []) || decide (s = ['\n'])

/-- Whether `^([prbnqk1-8]+\/?){8}.*$` matches the subject. -/
def fen_regex_matches (subject : List Char) : Bool :=
  ((re_groups 8 subject).flatMap re_dot_star).any re_dollar

/-- The value of `pcre_exec(re, NULL, buf, read, 0, 0, offsets, 8)`: on a match, one more
than the number of the last capturing group that was set (the pattern has one group);
otherwise `PCRE_ERROR_NOMATCH`. -/
def pcre_exec (subject : List Char) : Int := if fen_regex_matches subject then 2 else -1

/-! ## The receive loop of `server_thread` (main.c, lines 162, 201-233) -/

/-- The macro `BUFFER_SIZE`. -/
def BUFFER_SIZE : Nat := 1024

/-- What `recv(client_fd, buf, BUFFER_SIZE, 0)` delivers. -/
inductive Recv where
  | data (bytes : List Char)
  | closed
  | error
  deriving DecidableEq

/-- The bytes `recv` copies to the front of `buf`. -/
def Recv.bytes : Recv → List Char
  | .data bytes => bytes.take BUFFER_SIZE
  | _ => []

/-- The value `recv` returns, stored in `read`. -/
def Recv.read (r : Recv) : Int :=
  match r with
  | .data _ => (r.bytes.length : Int)
  | .closed => 0
  | .error => -1

/-- One result delivered to `server_thread` by the system. -/
inductive Event where
  | accept (client_fd : Int)
  | recv (r : Recv)
  deriving DecidableEq

/-- Where `server_thread` stands: blocked in `accept`, blocked in `recv`, terminated by
`exit(status)`, or past a `strlen` that ran off the end of `buf`. -/
inductive Phase where
  | accepting
  | receiving
  | exited (status : Int)
  | overrun
  deriving DecidableEq

/-- The variables the loop of `server_thread` acts on. -/
structure Server where
  phase : Phase
  client_connected : Int
  buf : List Char
  mem : Mem

/-- Contents of `buf` after `recv` has copied `bytes` to its front. -/
def recv_into (buf bytes : List Char) : List Char := bytes ++ buf.drop bytes.length

/-- The C string that starts at `buf`: the bytes before the first NUL, when `buf` holds
one. -/
def c_string (buf : List Char) : Option (List Char) :=
  if buf.contains '\x00' then some (buf.takeWhile (fun c => c != '\x00')) else none

/-- One turn of the loops of `server_thread`, from the result of the call it is blocked
in. -/
def server_step (s : Server) (e : Event) : Server :=
  match s.phase, e with
  | .accepting, .accept client_fd =>
    if client_fd < 0 then { s with phase := .exited (-1) }
    else { s with client_connected := 1, phase := .receiving }
  | .receiving, .recv r =>
    let buf := recv_into s.buf r.bytes
    let read := r.read
    if read = 0 then { s with client_connected := 0, phase := .accepting }
    else if read < 0 then { s with phase := .exited (-1) }
    else if pcre_exec (buf.take read.toNat) > 0 then
      match c_string buf with
      | some fen => { s with buf := buf, mem := run_fen_to_grid fen s.mem }
      | none => { s with buf := buf, phase := .overrun }
    else { s with buf := buf }
  | _, _ => s

/-- The loops of `server_thread` over a sequence of results. -/
def server_run (s : Server) (es : List Event) : Server := es.foldl server_step s

/-- The zero-initialised `static char grid[64]`. -/
def grid_zero : Mem := { grid := fun _ => '\x00', stores := [] }

/-- State when `server_thread` first calls `accept`: `main` has run
`fen_to_grid(current_fen)` with `current_fen = DEFAULT_FEN`, `client_connected` is 0 and
`buf` holds whatever the stack held. -/
def server_start (buf : List Char) : Server :=
  { phase := .accepting, client_connected := 0, buf := buf,
    mem := run_fen_to_grid DEFAULT_FEN grid_zero }

/-! ## The render loop of `main` (main.c, lines 36-42, 332-338, 400-417) -/

/-- The models loaded by `LOAD_PIECE`. -/
inductive Piece where
  | pawn | bishop | knight | rook | king | queen
  deriving DecidableEq, Repr

/-- The dictionary `piece_map` after the six `LOAD_PIECE(x, c)` with a non-zero `c`: each
stores the model under `c` and under `c - 32`. -/
def piece_map (c : Char) : Option Piece :=
  if c = 'p' ∨ c = Char.ofNat ('p'.toNat - 32) then some .pawn
  else if c = 'b' ∨ c = Char.ofNat ('b'.toNat - 32) then some .bishop
  else if c = 'n' ∨ c = Char.ofNat ('n'.toNat - 32) then some .knight
  else if c = 'r' ∨ c = Char.ofNat ('r'.toNat - 32) then some .rook
  else if c = 'k' ∨ c = Char.ofNat ('k'.toNat - 32) then some .king
  else if c = 'q' ∨ c = Char.ofNat ('q'.toNat - 32) then some .queen
  else none

/-- The test `is_black = ((int)grid_c < 98)`. -/
def is_black (grid_c : Char) : Bool := decide (grid_c.toNat < 98)

/-! ## Reading a placement string rank by rank -/

/-- The cells one character of a rank stands for: a digit `1`-`8` stands for that many
empty cells `'X'`, any other character for itself. -/
def char_cells (c : Char) : List Char :=
  if is_digit18 c then List.replicate (c.toNat - 48) 'X' else [c]

/-- The cells of a whole string, rank after rank, the separators `/` left out. -/
def cells_of : List Char → List Char
  | [] => []
  | c :: cs => if c = '/' then cells_of cs else char_cells c ++ cells_of cs

/-- The ranks of a placement string: the pieces between the separators `/`. -/
def ranks : List Char → List (List Char)
  | [] => [[]]
  | c :: cs =>
    if c = '/' then [] :: ranks cs
    else match ranks cs with
      | [] => [[c]]
      | r :: rs => (c :: r) :: rs

/-- The cells of one rank, file by file. -/
def rank_cells (r : List Char) : List Char := r.flatMap char_cells

/-- A well-formed placement string: exactly 8 ranks separated by `/`, every character of a
rank one of the 12 piece letters or a digit `1`-`8`, and every rank 8 files wide. -/
def WellFormed (s : List Char) : Prop :=
  (ranks s).length = 8 ∧
    ∀ r ∈ ranks s, (∀ c ∈ r, is_valid c = true ∨ is_digit18 c = true) ∧ (rank_cells r).length = 8

instance (s : List Char) : Decidable (WellFormed s) := by
  unfold WellFormed
  infer_instance

/-- What a placement string puts on file `c` of its `r`-th rank: the piece letter, or `'X'`
when the square is empty. -/
def placed (s : List Char) (r c : Nat) : Char := (rank_cells ((ranks s).getD r [])).getD c 'X'

/-- Every `/` of the string is met with `cur_col = 8`, and the string holds no space: the
second loop then fills consecutive cells. -/
def Aligned : List Char → Nat → Prop
  | [], _ => True
  | c :: cs, cur_col =>
    if c = '/' then cur_col = 8 ∧ Aligned cs 0
    else c ≠ ' ' ∧ Aligned cs (cur_col + (char_cells c).length)

/-- Deciding `Aligned`, character by character. -/
def Aligned.dec : (s : List Char) → (cur_col : Nat) → Decidable (Aligned s cur_col)
  | [], _ => isTrue trivial
  | c :: cs, cur_col =>
    if hs : c = '/' then
      if h8 : cur_col = 8 then
        match Aligned.dec cs 0 with
        | isTrue h => isTrue (by simp only [Aligned, hs, if_true]; exact ⟨h8, h⟩)
        | isFalse h => isFalse (by simp only [Aligned, hs, if_true]; exact fun x => h x.2)
      else isFalse (by simp only [Aligned, hs, if_true]; exact fun x => h8 x.1)
    else
      if hsp : c = ' ' then isFalse (by simp only [Aligned, hs, if_false]; exact fun x => x.1 hsp)
      else
        match Aligned.dec cs (cur_col + (char_cells c).length) with
        | isTrue h => isTrue (by simp only [Aligned, hs, if_false]; exact ⟨hsp, h⟩)
        | isFalse h => isFalse (by simp only [Aligned, hs, if_false]; exact fun x => h x.2)

instance (s : List Char) (cur_col : Nat) : Decidable (Aligned s cur_col) := Aligned.dec s cur_col

/-- Every character is `/`, a digit `1`-`8` or one of the 12 piece letters. -/
def Placement (s : List Char) : Prop :=
  ∀ c ∈ s, c = '/' ∨ is_digit18 c = true ∨ is_valid c = true

/-- Swap the case of a piece letter; every other character is left as it is. -/
def swap_case (c : Char) : Char :=
  if ['p', 'r', 'n', 'b', 'k', 'q'].contains c then Char.ofNat (c.toNat - 32)
  else if ['P', 'R', 'N', 'B', 'K', 'Q'].contains c then Char.ofNat (c.toNat + 32)
  else c

/-! ## The parser: general facts -/

theorem pass1_DEFAULT_FEN : pass1 DEFAULT_FEN 0 = .total 64 := by decide

theorem fen_to_grid_DEFAULT_FEN (fuel : Nat) (m : Mem) :
    fen_to_grid (fuel + 1) DEFAULT_FEN m = some (pass2 DEFAULT_FEN 0 0 m) := by
  simp [fen_to_grid, pass1_DEFAULT_FEN]

/-- The call returns: with room for two nested calls, `fen_to_grid` always yields a result,
the one `run_fen_to_grid` names. -/
theorem fen_to_grid_returns (fuel : Nat) (fen : List Char) (m : Mem) :
    fen_to_grid (fuel + 2) fen m = some (run_fen_to_grid fen m) := by
  unfold run_fen_to_grid
  unfold fen_to_grid
  cases pass1 fen 0 with
  | invalid c => simp [fen_to_grid_DEFAULT_FEN]
  | total n =>
    by_cases h : n < 64
    · simp [h, fen_to_grid_DEFAULT_FEN]
    · simp [h]

theorem run_fen_to_grid_invalid {fen : List Char} {c : Char} (m : Mem)
    (h : pass1 fen 0 = .invalid c) : run_fen_to_grid fen m = pass2 DEFAULT_FEN 0 0 m := by
  simp [run_fen_to_grid, fen_to_grid, h, pass1_DEFAULT_FEN]

theorem run_fen_to_grid_short {fen : List Char} {n : Nat} (m : Mem)
    (h : pass1 fen 0 = .total n) (hn : n < 64) :
    run_fen_to_grid fen m = pass2 fen 0 0 (pass2 DEFAULT_FEN 0 0 m) := by
  simp [run_fen_to_grid, fen_to_grid, h, hn, pass1_DEFAULT_FEN]

theorem run_fen_to_grid_full {fen : List Char} {n : Nat} (m : Mem)
    (h : pass1 fen 0 = .total n) (hn : 64 ≤ n) :
    run_fen_to_grid fen m = pass2 fen 0 0 m := by
  have : ¬ n < 64 := by omega
  simp [run_fen_to_grid, fen_to_grid, h, this]

theorem fill_empty_snd (v cur_row cur_col : Nat) (m : Mem) :
    (fill_empty v cur_row cur_col m).2 = cur_col + v := by
  induction v generalizing cur_col m with
  | zero => simp [fill_empty]
  | succ v ih => simp [fill_empty, ih]; omega

theorem fill_empty_grid (v cur_row cur_col : Nat) (m : Mem) (i : Nat) :
    (fill_empty v cur_row cur_col m).1.grid i =
      if cur_row * 8 + cur_col ≤ i ∧ i < cur_row * 8 + cur_col + v then 'X' else m.grid i := by
  induction v generalizing cur_col m with
  | zero =>
    simp only [fill_empty, Nat.add_zero]
    rw [if_neg (by omega)]
  | succ v ih =>
    simp only [fill_empty, ih, Mem.store]
    by_cases h1 : i = cur_row * 8 + cur_col
    · subst h1
      simp
    · by_cases h2 : cur_row * 8 + (cur_col + 1) ≤ i ∧ i < cur_row * 8 + (cur_col + 1) + v
      · have : cur_row * 8 + cur_col ≤ i ∧ i < cur_row * 8 + cur_col + (v + 1) := by omega
        simp [h2, this]
      · have : ¬ (cur_row * 8 + cur_col ≤ i ∧ i < cur_row * 8 + cur_col + (v + 1)) := by omega
        simp [h1, h2, this]

theorem fill_empty_stores (v cur_row cur_col : Nat) (m : Mem) :
    (fill_empty v cur_row cur_col m).1.stores =
      (List.range' (cur_row * 8 + cur_col) v).reverse ++ m.stores := by
  induction v generalizing cur_col m with
  | zero => simp [fill_empty]
  | succ v ih =>
    simp only [fill_empty, ih, Mem.store, List.range'_succ, List.reverse_cons,
      List.append_assoc, List.singleton_append]
    rfl

theorem length_char_cells_digit {c : Char} (h : is_digit18 c = true) :
    (char_cells c).length = c.toNat - 48 := by
  simp [char_cells, h]

theorem length_char_cells_other {c : Char} (h : is_digit18 c = false) :
    (char_cells c).length = 1 := by
  simp [char_cells, h]

/-- Cells of `grid` after the second loop over an aligned string: the cells of the string
laid out from `cur_row * 8 + cur_col` on, every other cell untouched. -/
theorem pass2_grid_of_aligned (s : List Char) (cur_row cur_col : Nat) (m : Mem) (i : Nat)
    (h : Aligned s cur_col) :
    (pass2 s cur_row cur_col m).grid i =
      if cur_row * 8 + cur_col ≤ i ∧ i < cur_row * 8 + cur_col + (cells_of s).length then
        (cells_of s).getD (i - (cur_row * 8 + cur_col)) 'X'
      else m.grid i := by
  induction s generalizing cur_row cur_col m with
  | nil =>
    simp only [pass2, cells_of, List.length_nil, Nat.add_zero]
    rw [if_neg (by omega)]
  | cons c cs ih =>
    by_cases hs : c = '/'
    · subst hs
      simp only [Aligned, if_true] at h
      obtain ⟨h8, hal⟩ := h
      subst h8
      have e : pass2 ('/' :: cs) cur_row 8 m = pass2 cs (cur_row + 1) 0 m := by
        simp [pass2]
      rw [e, ih (cur_row + 1) 0 m hal]
      have e2 : (cur_row + 1) * 8 + 0 = cur_row * 8 + 8 := by omega
      simp [cells_of, e2]
    · simp only [Aligned, hs, if_false] at h
      obtain ⟨hsp, hal⟩ := h
      by_cases hd : is_digit18 c = true
      · have e : pass2 (c :: cs) cur_row cur_col m =
            pass2 cs cur_row (cur_col + (c.toNat - 48))
              (fill_empty (c.toNat - 48) cur_row cur_col m).1 := by
          simp [pass2, hs, hsp, hd, fill_empty_snd]
        rw [length_char_cells_digit hd] at hal
        rw [e, ih cur_row _ _ hal, fill_empty_grid]
        have hc : cells_of (c :: cs) = List.replicate (c.toNat - 48) 'X' ++ cells_of cs := by
          simp [cells_of, hs, char_cells, hd]
        rw [hc]
        generalize c.toNat - 48 = v
        simp only [List.length_append, List.length_replicate]
        by_cases h1 : cur_row * 8 + (cur_col + v) ≤ i ∧
            i < cur_row * 8 + (cur_col + v) + (cells_of cs).length
        · have h2 : cur_row * 8 + cur_col ≤ i ∧
              i < cur_row * 8 + cur_col + (v + (cells_of cs).length) := by omega
          have h3 : i - (cur_row * 8 + cur_col) = v + (i - (cur_row * 8 + (cur_col + v))) := by
            omega
          rw [if_pos h1, if_pos h2, h3, List.getD_eq_getElem?_getD, List.getD_eq_getElem?_getD,
            List.getElem?_append_right (by simp)]
          simp
        · rw [if_neg h1]
          by_cases h2 : cur_row * 8 + cur_col ≤ i ∧ i < cur_row * 8 + cur_col + v
          · have h4 : cur_row * 8 + cur_col ≤ i ∧
                i < cur_row * 8 + cur_col + (v + (cells_of cs).length) := by omega
            have h5 : i - (cur_row * 8 + cur_col) < v := by omega
            rw [if_pos h2, if_pos h4, List.getD_eq_getElem?_getD,
              List.getElem?_append_left (by simpa using h5)]
            simp [h5]
          · have h4 : ¬ (cur_row * 8 + cur_col ≤ i ∧
                i < cur_row * 8 + cur_col + (v + (cells_of cs).length)) := by omega
            rw [if_neg h2, if_neg h4]
      · have hd' : is_digit18 c = false := by simpa using hd
        have e : pass2 (c :: cs) cur_row cur_col m =
            pass2 cs cur_row (cur_col + 1) (m.store (cur_row * 8 + cur_col) c) := by
          simp [pass2, hs, hsp, hd']
        rw [length_char_cells_other hd'] at hal
        rw [e, ih cur_row _ _ hal]
        have hc : cells_of (c :: cs) = c :: cells_of cs := by
          simp [cells_of, hs, char_cells, hd']
        rw [hc]
        simp only [List.length_cons, Mem.store]
        by_cases h1 : cur_row * 8 + (cur_col + 1) ≤ i ∧
            i < cur_row * 8 + (cur_col + 1) + (cells_of cs).length
        · have h2 : cur_row * 8 + cur_col ≤ i ∧
              i < cur_row * 8 + cur_col + ((cells_of cs).length + 1) := by omega
          have h3 : i - (cur_row * 8 + cur_col) = (i - (cur_row * 8 + (cur_col + 1))) + 1 := by
            omega
          rw [if_pos h1, if_pos h2, h3]
          simp
        · rw [if_neg h1]
          by_cases h2 : i = cur_row * 8 + cur_col
          · have h4 : cur_row * 8 + cur_col ≤ i ∧
                i < cur_row * 8 + cur_col + ((cells_of cs).length + 1) := by omega
            rw [if_pos h2, if_pos h4, h2]
            simp
          · have h4 : ¬ (cur_row * 8 + cur_col ≤ i ∧
                i < cur_row * 8 + cur_col + ((cells_of cs).length + 1)) := by omega
            rw [if_neg h2, if_neg h4]

theorem range'_split (a v n : Nat) :
    List.range' a (v + n) = List.range' a v ++ List.range' (a + v) n := by
  rw [List.range'_append_1, Nat.add_comm]

/-- Indices stored to by the second loop over an aligned string: each index from
`cur_row * 8 + cur_col` on once, in increasing order. -/
theorem pass2_stores_of_aligned (s : List Char) (cur_row cur_col : Nat) (m : Mem)
    (h : Aligned s cur_col) :
    (pass2 s cur_row cur_col m).stores =
      (List.range' (cur_row * 8 + cur_col) (cells_of s).length).reverse ++ m.stores := by
  induction s generalizing cur_row cur_col m with
  | nil => simp [pass2, cells_of]
  | cons c cs ih =>
    by_cases hs : c = '/'
    · subst hs
      simp only [Aligned, if_true] at h
      obtain ⟨h8, hal⟩ := h
      subst h8
      have e : pass2 ('/' :: cs) cur_row 8 m = pass2 cs (cur_row + 1) 0 m := by
        simp [pass2]
      have e2 : (cur_row + 1) * 8 + 0 = cur_row * 8 + 8 := by omega
      rw [e, ih (cur_row + 1) 0 m hal, e2]
      simp [cells_of]
    · simp only [Aligned, hs, if_false] at h
      obtain ⟨hsp, hal⟩ := h
      by_cases hd : is_digit18 c = true
      · have e : pass2 (c :: cs) cur_row cur_col m =
            pass2 cs cur_row (cur_col + (c.toNat - 48))
              (fill_empty (c.toNat - 48) cur_row cur_col m).1 := by
          simp [pass2, hs, hsp, hd, fill_empty_snd]
        rw [length_char_cells_digit hd] at hal
        rw [e, ih cur_row _ _ hal, fill_empty_stores]
        have hc : cells_of (c :: cs) = List.replicate (c.toNat - 48) 'X' ++ cells_of cs := by
          simp [cells_of, hs, char_cells, hd]
        rw [hc]
        generalize c.toNat - 48 = v
        simp only [List.length_append, List.length_replicate]
        rw [range'_split (cur_row * 8 + cur_col) v (cells_of cs).length, List.reverse_append,
          List.append_assoc, Nat.add_assoc]
      · have hd' : is_digit18 c = false := by simpa using hd
        have e : pass2 (c :: cs) cur_row cur_col m =
            pass2 cs cur_row (cur_col + 1) (m.store (cur_row * 8 + cur_col) c) := by
          simp [pass2, hs, hsp, hd']
        rw [length_char_cells_other hd'] at hal
        rw [e, ih cur_row _ _ hal]
        have hc : cells_of (c :: cs) = c :: cells_of cs := by
          simp [cells_of, hs, char_cells, hd']
        rw [hc]
        simp only [List.length_cons, Mem.store]
        rw [Nat.add_comm (cells_of cs).length 1,
          range'_split (cur_row * 8 + cur_col) 1 (cells_of cs).length, List.reverse_append,
          List.append_assoc, Nat.add_assoc]
        rfl

theorem rank_char_ne {c : Char} (h : is_valid c = true ∨ is_digit18 c = true) :
    c ≠ ' ' ∧ c ≠ '\n' ∧ c ≠ '/' := by
  refine ⟨?_, ?_, ?_⟩ <;>
  · rintro rfl
    revert h
    decide

theorem pass1_of_placement (s : List Char) (t : Nat) (h : Placement s) :
    pass1 s t = .total (t + (cells_of s).length) := by
  induction s generalizing t with
  | nil => simp [pass1, cells_of]
  | cons c cs ih =>
    have hcs : Placement cs := fun x hx => h x (List.mem_cons_of_mem _ hx)
    by_cases hs : c = '/'
    · subst hs
      simp [pass1, cells_of, ih _ hcs]
    · have hc : is_valid c = true ∨ is_digit18 c = true := by
        rcases h c (List.mem_cons_self _ _) with h1 | h1 | h1
        · exact absurd h1 hs
        · exact Or.inr h1
        · exact Or.inl h1
      obtain ⟨n1, n2, -⟩ := rank_char_ne hc
      by_cases hd : is_digit18 c = true
      · simp [pass1, cells_of, hs, n1, n2, hd, ih _ hcs, char_cells, Nat.add_assoc]
      · have hv : is_valid c = true := by
          rcases hc with h1 | h1
          · exact h1
          · exact absurd h1 hd
        simp [pass1, cells_of, hs, n1, n2, hd, hv, ih _ hcs, char_cells]
        omega

theorem pass1_append_of_placement (pre rest : List Char) (t : Nat) (h : Placement pre) :
    pass1 (pre ++ rest) t = pass1 rest (t + (cells_of pre).length) := by
  induction pre generalizing t with
  | nil => simp [cells_of]
  | cons c cs ih =>
    have hcs : Placement cs := fun x hx => h x (List.mem_cons_of_mem _ hx)
    by_cases hs : c = '/'
    · subst hs
      simp [pass1, cells_of, ih _ hcs]
    · have hc : is_valid c = true ∨ is_digit18 c = true := by
        rcases h c (List.mem_cons_self _ _) with h1 | h1 | h1
        · exact absurd h1 hs
        · exact Or.inr h1
        · exact Or.inl h1
      obtain ⟨n1, n2, -⟩ := rank_char_ne hc
      by_cases hd : is_digit18 c = true
      · simp [pass1, cells_of, hs, n1, n2, hd, ih _ hcs, char_cells, Nat.add_assoc]
      · have hv : is_valid c = true := by
          rcases hc with h1 | h1
          · exact h1
          · exact absurd h1 hd
        simp [pass1, cells_of, hs, n1, n2, hd, hv, ih _ hcs, char_cells, Nat.add_assoc,
          Nat.add_comm 1]

theorem ranks_ne_nil (s : List Char) : ranks s ≠ [] := by
  cases s with
  | nil => simp [ranks]
  | cons c cs =>
    by_cases hs : c = '/'
    · simp [ranks, hs]
    · cases h : ranks cs <;> simp [ranks, hs, h]

theorem cells_of_eq_ranks (s : List Char) : cells_of s = (ranks s).flatMap rank_cells := by
  induction s with
  | nil => simp [cells_of, ranks, rank_cells]
  | cons c cs ih =>
    by_cases hs : c = '/'
    · simp [cells_of, ranks, hs, ih, rank_cells]
    · cases h : ranks cs with
      | nil => exact absurd h (ranks_ne_nil cs)
      | cons r rs =>
        rw [h] at ih
        simp [cells_of, ranks, hs, h, ih, rank_cells]

theorem mem_ranks_of_mem (s : List Char) {c : Char} (hc : c ∈ s) (hs : c ≠ '/') :
    ∃ r ∈ ranks s, c ∈ r := by
  induction s with
  | nil => simp at hc
  | cons d ds ih =>
    by_cases hd : d = '/'
    · have : c ∈ ds := by
        rcases List.mem_cons.1 hc with h1 | h1
        · exact absurd (h1.trans hd) hs
        · exact h1
      obtain ⟨r, hr, hcr⟩ := ih this
      exact ⟨r, by simp [ranks, hd, hr], hcr⟩
    · cases h : ranks ds with
      | nil => exact absurd h (ranks_ne_nil ds)
      | cons r rs =>
        rcases List.mem_cons.1 hc with h1 | h1
        · exact ⟨d :: r, by simp [ranks, hd, h], by simp [h1]⟩
        · obtain ⟨r', hr', hcr⟩ := ih h1
          rw [h] at hr'
          rcases List.mem_cons.1 hr' with h2 | h2
          · exact ⟨d :: r, by simp [ranks, hd, h], by simp [← h2, hcr]⟩
          · exact ⟨r', by simp [ranks, hd, h, h2], hcr⟩

theorem aligned_of_ranks (s : List Char) (cur_col : Nat)
    (hv : ∀ r ∈ ranks s, ∀ c ∈ r, is_valid c = true ∨ is_digit18 c = true)
    (hhead : cur_col + (rank_cells ((ranks s).headD [])).length = 8)
    (htail : ∀ r ∈ (ranks s).tail, (rank_cells r).length = 8) : Aligned s cur_col := by
  induction s generalizing cur_col with
  | nil => simp [Aligned]
  | cons c cs ih =>
    cases h : ranks cs with
    | nil => exact absurd h (ranks_ne_nil cs)
    | cons r rs =>
      by_cases hs : c = '/'
      · have e : ranks (c :: cs) = [] :: r :: rs := by simp [ranks, hs, h]
        rw [e] at hv hhead htail
        simp only [Aligned, hs, if_true]
        refine ⟨by simpa [rank_cells] using hhead, ih 0 ?_ ?_ ?_⟩
        · intro r' hr'
          rw [h] at hr'
          exact hv r' (List.mem_cons_of_mem _ hr')
        · rw [h]
          simpa using htail r (by simp)
        · intro r' hr'
          rw [h] at hr'
          exact htail r' (by simp at hr' ⊢; exact Or.inr hr')
      · have e : ranks (c :: cs) = (c :: r) :: rs := by simp [ranks, hs, h]
        rw [e] at hv hhead htail
        simp only [Aligned, hs, if_false]
        refine ⟨(rank_char_ne (hv (c :: r) (by simp) c (by simp))).1, ih _ ?_ ?_ ?_⟩
        · intro r' hr'
          rw [h] at hr'
          rcases List.mem_cons.1 hr' with h1 | h1
          · subst h1
            intro x hx
            exact hv (c :: r') (by simp) x (List.mem_cons_of_mem _ hx)
          · exact hv r' (List.mem_cons_of_mem _ h1)
        · rw [h]
          simp only [List.headD_cons, rank_cells, List.flatMap_cons, List.length_append] at hhead ⊢
          omega
        · intro r' hr'
          rw [h] at hr'
          exact htail r' (by simpa using hr')

theorem length_flatMap_rank_cells (L : List (List Char))
    (h : ∀ l ∈ L, (rank_cells l).length = 8) : (L.flatMap rank_cells).length = 8 * L.length := by
  induction L with
  | nil => simp
  | cons l L ih =>
    have h1 := h l (by simp)
    have h2 := ih (fun x hx => h x (List.mem_cons_of_mem _ hx))
    simp only [List.flatMap_cons, List.length_append, List.length_cons, h1, h2]
    omega

theorem getD_flatMap_rank_cells (L : List (List Char)) (r c : Nat) (d : Char)
    (h : ∀ l ∈ L, (rank_cells l).length = 8) (hr : r < L.length) (hc : c < 8) :
    (L.flatMap rank_cells).getD (r * 8 + c) d = (rank_cells (L.getD r [])).getD c d := by
  induction L generalizing r with
  | nil => simp at hr
  | cons l L ih =>
    have h1 := h l (by simp)
    cases r with
    | zero =>
      simp only [List.flatMap_cons, Nat.zero_mul, Nat.zero_add, List.getD_eq_getElem?_getD]
      rw [List.getElem?_append_left (by omega)]
      simp
    | succ r =>
      have e : (r + 1) * 8 + c = (rank_cells l).length + (r * 8 + c) := by omega
      simp only [List.flatMap_cons, List.getD_eq_getElem?_getD, e]
      rw [List.getElem?_append_right (by omega)]
      have := ih r (fun x hx => h x (List.mem_cons_of_mem _ hx)) (by simpa using hr)
      simp only [List.getD_eq_getElem?_getD] at this
      simpa using this

/-- A well-formed string through `fen_to_grid`: no fallback, all 64 cells stored to once, in
increasing order, each with what the string places there. -/
theorem run_fen_to_grid_well_formed (s : List Char) (m : Mem) (h : WellFormed s) :
    run_fen_to_grid s m = pass2 s 0 0 m ∧
    (∀ r c, r < 8 → c < 8 → (pass2 s 0 0 m).grid (r * 8 + c) = placed s r c) ∧
    (pass2 s 0 0 m).stores = (List.range' 0 64).reverse ++ m.stores := by
  obtain ⟨h8, hr⟩ := h
  have hlen : (cells_of s).length = 64 := by
    rw [cells_of_eq_ranks, length_flatMap_rank_cells _ (fun l hl => (hr l hl).2), h8]
  have hpl : Placement s := by
    intro c hc
    by_cases hs : c = '/'
    · exact Or.inl hs
    · obtain ⟨r, hr1, hr2⟩ := mem_ranks_of_mem s hc hs
      rcases (hr r hr1).1 c hr2 with h1 | h1
      · exact Or.inr (Or.inr h1)
      · exact Or.inr (Or.inl h1)
  have hal : Aligned s 0 := by
    apply aligned_of_ranks s 0 (fun r hr1 => (hr r hr1).1)
    · cases h : ranks s with
      | nil => exact absurd h (ranks_ne_nil s)
      | cons r rs =>
        have := (hr r (by simp [h])).2
        simpa using this
    · intro r hr1
      exact (hr r (List.mem_of_mem_tail hr1)).2
  have hp1 : pass1 s 0 = .total 64 := by
    rw [pass1_of_placement s 0 hpl, hlen]
  refine ⟨run_fen_to_grid_full m hp1 (le_refl _), ?_, ?_⟩
  · intro r c hr8 hc8
    rw [pass2_grid_of_aligned s 0 0 m _ hal, hlen]
    have : 0 * 8 + 0 ≤ r * 8 + c ∧ r * 8 + c < 0 * 8 + 0 + 64 := by omega
    rw [if_pos this]
    simp only [Nat.zero_mul, Nat.add_zero, Nat.sub_zero, placed]
    rw [cells_of_eq_ranks]
    exact getD_flatMap_rank_cells _ r c 'X' (fun l hl => (hr l hl).2) (by omega) hc8
  · rw [pass2_stores_of_aligned s 0 0 m hal, hlen]

theorem getD_mem_of_lt {l : List Char} {n : Nat} (d : Char) (h : n < l.length) :
    l.getD n d ∈ l := by
  rw [List.getD_eq_getElem _ _ h]
  exact List.getElem_mem h

theorem rank_cells_mem {r : List Char} {x : Char}
    (hv : ∀ c ∈ r, is_valid c = true ∨ is_digit18 c = true) (hx : x ∈ rank_cells r) :
    x = 'X' ∨ is_valid x = true := by
  simp only [rank_cells, List.mem_flatMap] at hx
  obtain ⟨c, hc, hxc⟩ := hx
  by_cases hd : is_digit18 c = true
  · simp only [char_cells, hd, if_true] at hxc
    exact Or.inl (List.eq_of_mem_replicate hxc)
  · simp only [char_cells, hd] at hxc
    have : x = c := by simpa using hxc
    subst this
    rcases hv x hc with h1 | h1
    · exact Or.inr h1
    · exact absurd h1 hd

/-- In a well-formed string every square holds `'X'` or one of the 12 piece letters. -/
theorem placed_of_well_formed {s : List Char} (h : WellFormed s) {r c : Nat} (hr : r < 8)
    (hc : c < 8) : placed s r c = 'X' ∨ is_valid (placed s r c) = true := by
  obtain ⟨h8, hranks⟩ := h
  have hmem : (ranks s).getD r [] ∈ ranks s := by
    rw [List.getD_eq_getElem _ _ (by omega)]
    exact List.getElem_mem _
  obtain ⟨hv, hl⟩ := hranks _ hmem
  exact rank_cells_mem hv (getD_mem_of_lt 'X' (by omega))

/-- What `swap_case` does to a character: a piece letter goes to the piece letter of the
other case, with the same model in `piece_map` and the opposite colour test; every other
character stays. -/
theorem swap_case_spec (c : Char) :
    (is_valid c = true ∧ is_valid (swap_case c) = true ∧ is_digit18 c = false ∧
      is_digit18 (swap_case c) = false ∧ c ≠ '/' ∧ swap_case c ≠ '/' ∧ c ≠ 'X' ∧
      swap_case c ≠ 'X' ∧ piece_map (swap_case c) = piece_map c ∧
      (piece_map c).isSome = true ∧ is_black (swap_case c) = !is_black c) ∨
    (is_valid c = false ∧ swap_case c = c) := by
  by_cases h : is_valid c = true
  · left
    have h12 : c ∈ valid_fen_chars := by simpa [is_valid] using h
    simp only [valid_fen_chars, List.mem_cons, List.mem_singleton, List.not_mem_nil,
      or_false] at h12
    rcases h12 with h1 | h1 | h1 | h1 | h1 | h1 | h1 | h1 | h1 | h1 | h1 | h1 <;>
    · subst h1
      decide
  · right
    have hf : is_valid c = false := by simpa using h
    refine ⟨hf, ?_⟩
    have h12 : c ∉ valid_fen_chars := by simpa [is_valid] using hf
    simp only [valid_fen_chars, List.mem_cons, List.mem_singleton, List.not_mem_nil,
      or_false, not_or] at h12
    simp [swap_case, h12]

theorem swap_case_eq_slash (c : Char) : swap_case c = '/' ↔ c = '/' := by
  rcases swap_case_spec c with h | h
  · exact ⟨fun e => absurd e h.2.2.2.2.2.1, fun e => absurd e h.2.2.2.2.1⟩
  · rw [h.2]

theorem char_cells_swap_case (c : Char) :
    char_cells (swap_case c) = (char_cells c).map swap_case := by
  rcases swap_case_spec c with h | h
  · simp [char_cells, h.2.2.1, h.2.2.2.1]
  · rw [h.2]
    by_cases hd : is_digit18 c = true
    · simp only [char_cells, hd, if_true, List.map_replicate]
      rfl
    · simp [char_cells, hd, h.2]

theorem rank_cells_swap_case (r : List Char) :
    rank_cells (r.map swap_case) = (rank_cells r).map swap_case := by
  induction r with
  | nil => simp [rank_cells]
  | cons c cs ih =>
    simp only [rank_cells, List.map_cons, List.flatMap_cons, List.map_append] at ih ⊢
    rw [ih, char_cells_swap_case]

theorem ranks_swap_case (s : List Char) :
    ranks (s.map swap_case) = (ranks s).map (List.map swap_case) := by
  induction s with
  | nil => simp [ranks]
  | cons c cs ih =>
    by_cases hs : c = '/'
    · subst hs
      have : swap_case '/' = '/' := by decide
      simp [ranks, ih, this]
    · have hs' : ¬ swap_case c = '/' := fun e => hs ((swap_case_eq_slash c).1 e)
      cases h : ranks cs with
      | nil => exact absurd h (ranks_ne_nil cs)
      | cons r rs =>
        rw [h] at ih
        simp [ranks, hs, hs', ih, h]

theorem well_formed_swap_case {s : List Char} (h : WellFormed s) :
    WellFormed (s.map swap_case) := by
  obtain ⟨h8, hranks⟩ := h
  refine ⟨by simp [ranks_swap_case, h8], ?_⟩
  intro r hr
  rw [ranks_swap_case] at hr
  obtain ⟨r0, hr0, rfl⟩ := List.mem_map.1 hr
  obtain ⟨hv, hl⟩ := hranks r0 hr0
  refine ⟨?_, by simp [rank_cells_swap_case, hl]⟩
  intro c hc
  obtain ⟨c0, hc0, rfl⟩ := List.mem_map.1 hc
  rcases swap_case_spec c0 with h1 | h1
  · exact Or.inl h1.2.1
  · rw [h1.2]
    exact hv c0 hc0

theorem placed_swap_case (s : List Char) (r c : Nat) :
    placed (s.map swap_case) r c = swap_case (placed s r c) := by
  have e1 : swap_case 'X' = 'X' := by decide
  have e2 : ((ranks s).map (List.map swap_case)).getD r [] =
      List.map swap_case ((ranks s).getD r []) := by
    have := List.getD_map (l := ranks s) (d := []) (n := r) (List.map swap_case)
    simpa using this
  unfold placed
  rw [ranks_swap_case, e2, rank_cells_swap_case]
  have := List.getD_map (l := rank_cells ((ranks s).getD r [])) (d := 'X') (n := c) swap_case
  rw [e1] at this
  exact this

/-! ## The parser: the claims -/

/-- C1: for every well-formed placement string `s` and every prior content of the grid,
`fen_to_grid(s)` returns and leaves in `grid[r * 8 + c]`, for every row and column below 8,
what `s` places on file `c` of its `r`-th rank (`'X'` for an empty square), whatever the
grid held before.  For `DEFAULT_FEN` the 64 cells hold 32 pieces, 16 lowercase and 16
uppercase, with row 0 `rnbqkbnr` and row 7 `RNBQKBNR`. -/
theorem fen_to_grid_well_formed (s : List Char) (fuel : Nat) (m : Mem) (h : WellFormed s) :
    (∃ g, fen_to_grid (fuel + 2) s m = some g ∧
      ∀ r c, r < 8 → c < 8 → g.grid (r * 8 + c) = placed s r c) ∧
    (∃ d, fen_to_grid (fuel + 2) DEFAULT_FEN m = some d ∧
      (d.cells.filter (fun x => x != 'X')).length = 32 ∧
      (d.cells.filter (fun x => x != 'X' && x.isLower)).length = 16 ∧
      (d.cells.filter (fun x => x != 'X' && x.isUpper)).length = 16 ∧
      d.cells.take 8 = "rnbqkbnr".toList ∧ d.cells.drop 56 = "RNBQKBNR".toList) := by
  have hd : WellFormed DEFAULT_FEN := by decide
  obtain ⟨e1, g1, -⟩ := run_fen_to_grid_well_formed s m h
  obtain ⟨e2, g2, -⟩ := run_fen_to_grid_well_formed DEFAULT_FEN m hd
  refine ⟨⟨_, fen_to_grid_returns fuel s m, ?_⟩, ⟨_, fen_to_grid_returns fuel DEFAULT_FEN m, ?_⟩⟩
  · rw [e1]
    exact g1
  · have hc : (run_fen_to_grid DEFAULT_FEN m).cells =
        (List.range 64).map (fun i => placed DEFAULT_FEN (i / 8) (i % 8)) := by
      unfold Mem.cells
      apply List.map_congr_left
      intro i hi
      have hi' : i < 64 := List.mem_range.1 hi
      rw [e2]
      have := g2 (i / 8) (i % 8) (by omega) (by omega)
      rwa [Nat.div_add_mod'] at this
    rw [hc]
    decide

theorem fen_to_grid_well_formed_witness :
    WellFormed "r1bqkbnr/pppp1ppp/2n5/4p3/4P3/5N2/PPPP1PPP/RNBQKB1R".toList ∧
    ((∃ g, fen_to_grid (0 + 2) "r1bqkbnr/pppp1ppp/2n5/4p3/4P3/5N2/PPPP1PPP/RNBQKB1R".toList
        grid_zero = some g ∧
      ∀ r c, r < 8 → c < 8 → g.grid (r * 8 + c) =
        placed "r1bqkbnr/pppp1ppp/2n5/4p3/4P3/5N2/PPPP1PPP/RNBQKB1R".toList r c) ∧
    (∃ d, fen_to_grid (0 + 2) DEFAULT_FEN grid_zero = some d ∧
      (d.cells.filter (fun x => x != 'X')).length = 32 ∧
      (d.cells.filter (fun x => x != 'X' && x.isLower)).length = 16 ∧
      (d.cells.filter (fun x => x != 'X' && x.isUpper)).length = 16 ∧
      d.cells.take 8 = "rnbqkbnr".toList ∧ d.cells.drop 56 = "RNBQKBNR".toList)) :=
  ⟨by decide, fen_to_grid_well_formed _ 0 grid_zero (by decide)⟩

/-- C7: for every well-formed placement string `s`, parsing `s` with the case of every piece
letter swapped gives a grid with the same empty cells and the same model of `piece_map` in
every cell, and the colour test `(int)grid_c < 98` gives the opposite answer in every
non-empty cell; among the 12 piece letters the test is true exactly for `PRNBKQ`. -/
theorem fen_to_grid_swap_case (s : List Char) (fuel : Nat) (m : Mem) (h : WellFormed s) :
    (∃ a b, fen_to_grid (fuel + 2) s m = some a ∧
      fen_to_grid (fuel + 2) (s.map swap_case) m = some b ∧
      ∀ i, i < 64 →
        (a.grid i = 'X' ↔ b.grid i = 'X') ∧ piece_map (b.grid i) = piece_map (a.grid i) ∧
        (a.grid i ≠ 'X' →
          (piece_map (a.grid i)).isSome = true ∧ is_black (b.grid i) = !is_black (a.grid i))) ∧
    (∀ c, is_valid c = true → (is_black c = true ↔ c ∈ ['P', 'R', 'N', 'B', 'K', 'Q'])) ∧
    (∀ c, is_valid c = true → (is_black c = false ↔ c ∈ ['p', 'r', 'n', 'b', 'k', 'q'])) := by
  have hs := well_formed_swap_case h
  obtain ⟨e1, g1, -⟩ := run_fen_to_grid_well_formed s m h
  obtain ⟨e2, g2, -⟩ := run_fen_to_grid_well_formed (s.map swap_case) m hs
  refine ⟨⟨_, _, fen_to_grid_returns fuel s m, fen_to_grid_returns fuel _ m, ?_⟩, ?_, ?_⟩
  · intro i hi
    have k1 := g1 (i / 8) (i % 8) (by omega) (by omega)
    have k2 := g2 (i / 8) (i % 8) (by omega) (by omega)
    rw [Nat.div_add_mod'] at k1 k2
    rw [e1, e2, k1, k2, placed_swap_case]
    have e : swap_case 'X' = 'X' := by decide
    rcases swap_case_spec (placed s (i / 8) (i % 8)) with hp | hp
    · obtain ⟨-, -, -, -, -, -, n1, n2, p1, p2, p3⟩ := hp
      exact ⟨⟨fun x => absurd x n1, fun x => absurd x n2⟩, p1, fun _ => ⟨p2, p3⟩⟩
    · rcases placed_of_well_formed h (r := i / 8) (c := i % 8) (by omega) (by omega) with hx | hx
      · rw [hx, e]
        exact ⟨Iff.rfl, rfl, fun x => absurd rfl x⟩
      · rw [hp.1] at hx
        exact absurd hx (by decide)
  · intro c hc
    have h12 : c ∈ valid_fen_chars := by simpa [is_valid] using hc
    simp only [valid_fen_chars, List.mem_cons, List.mem_singleton, List.not_mem_nil,
      or_false] at h12
    rcases h12 with h1 | h1 | h1 | h1 | h1 | h1 | h1 | h1 | h1 | h1 | h1 | h1 <;>
    · subst h1
      decide
  · intro c hc
    have h12 : c ∈ valid_fen_chars := by simpa [is_valid] using hc
    simp only [valid_fen_chars, List.mem_cons, List.mem_singleton, List.not_mem_nil,
      or_false] at h12
    rcases h12 with h1 | h1 | h1 | h1 | h1 | h1 | h1 | h1 | h1 | h1 | h1 | h1 <;>
    · subst h1
      decide

theorem fen_to_grid_swap_case_witness :
    WellFormed DEFAULT_FEN ∧
    ((∃ a b, fen_to_grid (0 + 2) DEFAULT_FEN grid_zero = some a ∧
      fen_to_grid (0 + 2) (DEFAULT_FEN.map swap_case) grid_zero = some b ∧
      ∀ i, i < 64 →
        (a.grid i = 'X' ↔ b.grid i = 'X') ∧ piece_map (b.grid i) = piece_map (a.grid i) ∧
        (a.grid i ≠ 'X' →
          (piece_map (a.grid i)).isSome = true ∧ is_black (b.grid i) = !is_black (a.grid i))) ∧
    (∀ c, is_valid c = true → (is_black c = true ↔ c ∈ ['P', 'R', 'N', 'B', 'K', 'Q'])) ∧
    (∀ c, is_valid c = true → (is_black c = false ↔ c ∈ ['p', 'r', 'n', 'b', 'k', 'q']))) ∧
    DEFAULT_FEN.map swap_case = "RNBQKBNR/PPPPPPPP/8/8/8/8/pppppppp/rnbqkbnr".toList :=
  ⟨by decide, fen_to_grid_swap_case DEFAULT_FEN 0 grid_zero (by decide), by decide⟩

/-- C2: on `"8/8/8/8/8/8/8/7"` the first loop ends with `fen_total = 63`, so the call parses
`DEFAULT_FEN`, and then, with no `return`, runs the second loop over the input itself:
whatever the grid held before, cells 0 to 62 end as `'X'` and only cell 63 keeps the `'R'`
of the default position, where parsing `DEFAULT_FEN` leaves `'r'` in cell 0. -/
theorem fen_to_grid_short_total_overwrites (fuel : Nat) (m : Mem) :
    pass1 "8/8/8/8/8/8/8/7".toList 0 = .total 63 ∧
    ∃ g d, fen_to_grid (fuel + 2) "8/8/8/8/8/8/8/7".toList m = some g ∧
      fen_to_grid (fuel + 2) DEFAULT_FEN m = some d ∧
      g.cells = List.replicate 63 'X' ++ ['R'] ∧
      d.cells = "rnbqkbnrppppppppXXXXXXXXXXXXXXXXXXXXXXXXXXXXXXXXPPPPPPPPRNBQKBNR".toList ∧
      g.grid 0 ≠ d.grid 0 := by
  have hp : pass1 "8/8/8/8/8/8/8/7".toList 0 = .total 63 := by decide
  have ha : Aligned "8/8/8/8/8/8/8/7".toList 0 := by decide
  have hd : Aligned DEFAULT_FEN 0 := by decide
  have eg := run_fen_to_grid_short m hp (by decide)
  have ed := run_fen_to_grid_full m pass1_DEFAULT_FEN (le_refl _)
  have kd : ∀ i, i < 64 → (pass2 DEFAULT_FEN 0 0 m).grid i = (cells_of DEFAULT_FEN).getD i 'X' := by
    intro i hi
    rw [pass2_grid_of_aligned DEFAULT_FEN 0 0 m i hd]
    have : 0 * 8 + 0 ≤ i ∧ i < 0 * 8 + 0 + (cells_of DEFAULT_FEN).length := by
      have : (cells_of DEFAULT_FEN).length = 64 := by decide
      omega
    rw [if_pos this]
    simp
  have kg : ∀ i, i < 64 → (pass2 "8/8/8/8/8/8/8/7".toList 0 0 (pass2 DEFAULT_FEN 0 0 m)).grid i =
      if i < 63 then 'X' else 'R' := by
    intro i hi
    rw [pass2_grid_of_aligned _ 0 0 _ i ha]
    have hl : (cells_of "8/8/8/8/8/8/8/7".toList).length = 63 := by decide
    by_cases h63 : i < 63
    · have : 0 * 8 + 0 ≤ i ∧ i < 0 * 8 + 0 + (cells_of "8/8/8/8/8/8/8/7".toList).length := by
        omega
      rw [if_pos this, if_pos h63]
      have hx : ∀ j, j < 63 → (cells_of "8/8/8/8/8/8/8/7".toList).getD j 'X' = 'X' := by decide
      simpa using hx i h63
    · have : ¬ (0 * 8 + 0 ≤ i ∧ i < 0 * 8 + 0 + (cells_of "8/8/8/8/8/8/8/7".toList).length) := by
        omega
      have e63 : i = 63 := by omega
      rw [if_neg this, if_neg h63, e63, kd 63 (by decide)]
      decide
  have cd : (run_fen_to_grid DEFAULT_FEN m).cells =
      (List.range 64).map (fun i => (cells_of DEFAULT_FEN).getD i 'X') := by
    unfold Mem.cells
    apply List.map_congr_left
    intro i hi
    rw [ed]
    exact kd i (List.mem_range.1 hi)
  have cg : (run_fen_to_grid "8/8/8/8/8/8/8/7".toList m).cells =
      (List.range 64).map (fun i => if i < 63 then 'X' else 'R') := by
    unfold Mem.cells
    apply List.map_congr_left
    intro i hi
    rw [eg]
    exact kg i (List.mem_range.1 hi)
  refine ⟨hp, _, _, fen_to_grid_returns fuel _ m, fen_to_grid_returns fuel _ m, ?_, ?_, ?_⟩
  · rw [cg]
    decide
  · rw [cd]
    decide
  · rw [eg, ed, kg 0 (by decide), kd 0 (by decide)]
    decide

theorem pass2_space_tail (s t : List Char) (cur_row cur_col : Nat) (m : Mem)
    (h : ∀ c ∈ s, c ≠ ' ') :
    pass2 (s ++ ' ' :: t) cur_row cur_col m = pass2 s cur_row cur_col m := by
  induction s generalizing cur_row cur_col m with
  | nil => simp [pass2]
  | cons c cs ih =>
    have hc : c ≠ ' ' := h c (List.mem_cons_self _ _)
    have hcs : ∀ x ∈ cs, x ≠ ' ' := fun x hx => h x (List.mem_cons_of_mem _ hx)
    simp only [List.cons_append, pass2, hc, if_false]
    split
    · exact ih _ _ _ hcs
    · split
      · exact ih _ _ _ hcs
      · exact ih _ _ _ hcs

/-- Content after a space is ignored by both loops: a well-formed string followed by a
space and any bytes parses as the string alone. -/
theorem run_fen_to_grid_space_tail (s t : List Char) (m : Mem) (h : WellFormed s) :
    run_fen_to_grid (s ++ ' ' :: t) m = run_fen_to_grid s m := by
  have hpl : Placement s := by
    intro c hc
    by_cases hs : c = '/'
    · exact Or.inl hs
    · obtain ⟨r, hr1, hr2⟩ := mem_ranks_of_mem s hc hs
      rcases (h.2 r hr1).1 c hr2 with h1 | h1
      · exact Or.inr (Or.inr h1)
      · exact Or.inr (Or.inl h1)
  have hsp : ∀ c ∈ s, c ≠ ' ' := by
    intro c hc
    rcases hpl c hc with h1 | h1 | h1
    · rw [h1]
      decide
    · exact (rank_char_ne (Or.inr h1)).1
    · exact (rank_char_ne (Or.inl h1)).1
  have e1 : pass1 (s ++ ' ' :: t) 0 = pass1 s 0 := by
    rw [pass1_append_of_placement s _ 0 hpl, pass1_of_placement s 0 hpl]
    simp [pass1]
  unfold run_fen_to_grid fen_to_grid
  rw [e1, pass2_space_tail s t 0 0 _ hsp]
  cases pass1 s 0 with
  | invalid c => rfl
  | total n =>
    by_cases hn : n < 64
    · simp only [hn, if_true, fen_to_grid_DEFAULT_FEN, Option.map_some', pass2_space_tail s t 0 0 _ hsp]
    · simp only [hn, if_false]

/-- C4: for `DEFAULT_FEN` followed by a newline the first loop stops at the newline with
`fen_total = 64`, but the second loop, which stops at a space only, stores the newline at
index 64, one past the last cell of `grid`; the 64 cells themselves are those of
`DEFAULT_FEN`. -/
theorem fen_to_grid_newline_stored (fuel : Nat) (m : Mem) :
    WellFormed DEFAULT_FEN ∧
    pass1 (DEFAULT_FEN ++ ['\n']) 0 = .total 64 ∧
    ∃ g, fen_to_grid (fuel + 2) (DEFAULT_FEN ++ ['\n']) m = some g ∧
      g.stores = (List.range' 0 65).reverse ++ m.stores ∧ g.grid 64 = '\n' ∧
      g.cells = "rnbqkbnrppppppppXXXXXXXXXXXXXXXXXXXXXXXXXXXXXXXXPPPPPPPPRNBQKBNR".toList := by
  have hp : pass1 (DEFAULT_FEN ++ ['\n']) 0 = .total 64 := by decide
  have ha : Aligned (DEFAULT_FEN ++ ['\n']) 0 := by decide
  have hl : (cells_of (DEFAULT_FEN ++ ['\n'])).length = 65 := by decide
  have eg := run_fen_to_grid_full m hp (le_refl _)
  have kg : ∀ i, i < 65 → (pass2 (DEFAULT_FEN ++ ['\n']) 0 0 m).grid i =
      (cells_of (DEFAULT_FEN ++ ['\n'])).getD i 'X' := by
    intro i hi
    rw [pass2_grid_of_aligned _ 0 0 m i ha]
    have : 0 * 8 + 0 ≤ i ∧ i < 0 * 8 + 0 + (cells_of (DEFAULT_FEN ++ ['\n'])).length := by
      omega
    rw [if_pos this]
    simp
  refine ⟨by decide, hp, _, fen_to_grid_returns fuel _ m, ?_, ?_, ?_⟩
  · rw [eg, pass2_stores_of_aligned _ 0 0 m ha, hl]
  · rw [eg, kg 64 (by decide)]
    decide
  · have : (run_fen_to_grid (DEFAULT_FEN ++ ['\n']) m).cells =
        (List.range 64).map (fun i => (cells_of (DEFAULT_FEN ++ ['\n'])).getD i 'X') := by
      unfold Mem.cells
      apply List.map_congr_left
      intro i hi
      rw [eg]
      exact kg i (by have := List.mem_range.1 hi; omega)
    rw [this]
    decide

/-- C9: `"8/8/8/8/8/8/8/8p"` holds no space or newline, is accepted by the validator and has
`fen_total = 65`, and the second loop stores its last byte at index 64, outside `grid`;
`"88/88/88/88"` is accepted too with `fen_total = 64`, and the second loop stores to no
index from 40 to 63, so those cells keep what they held. -/
theorem fen_to_grid_stores_outside_grid (fuel : Nat) (m : Mem) :
    (fen_regex_matches "8/8/8/8/8/8/8/8p".toList = true ∧
      ' ' ∉ "8/8/8/8/8/8/8/8p".toList ∧ '\n' ∉ "8/8/8/8/8/8/8/8p".toList ∧
      pass1 "8/8/8/8/8/8/8/8p".toList 0 = .total 65 ∧
      ∃ g, fen_to_grid (fuel + 2) "8/8/8/8/8/8/8/8p".toList m = some g ∧
        g.stores = (List.range' 0 65).reverse ++ m.stores ∧ g.grid 64 = 'p') ∧
    (fen_regex_matches "88/88/88/88".toList = true ∧
      ' ' ∉ "88/88/88/88".toList ∧ '\n' ∉ "88/88/88/88".toList ∧
      pass1 "88/88/88/88".toList 0 = .total 64 ∧
      ∃ g, fen_to_grid 2 "88/88/88/88".toList grid_zero = some g ∧
        (∀ i, i < 64 → 40 ≤ i → i ∉ g.stores ∧ g.grid i = grid_zero.grid i)) := by
  have hp : pass1 "8/8/8/8/8/8/8/8p".toList 0 = .total 65 := by decide
  have ha : Aligned "8/8/8/8/8/8/8/8p".toList 0 := by decide
  have hl : (cells_of "8/8/8/8/8/8/8/8p".toList).length = 65 := by decide
  have eg := run_fen_to_grid_full m hp (by decide)
  refine ⟨⟨by decide, by decide, by decide, hp, _, fen_to_grid_returns fuel _ m, ?_, ?_⟩,
    by decide, by decide, by decide, by decide, ?_⟩
  · rw [eg, pass2_stores_of_aligned _ 0 0 m ha, hl]
  · rw [eg, pass2_grid_of_aligned _ 0 0 m 64 ha, hl, if_pos (by omega)]
    decide
  · refine ⟨_, fen_to_grid_returns 0 _ _, ?_⟩
    decide

/-! ## The receive loop: the claims -/

theorem server_run_exited (s : Server) (es : List Event) (status : Int)
    (h : s.phase = .exited status) : (server_run s es).phase = .exited status := by
  induction es generalizing s with
  | nil => exact h
  | cons e es ih =>
    have : server_step s e = s := by
      unfold server_step
      rw [h]
    simp only [server_run, List.foldl_cons] at ih ⊢
    rw [this]
    exact ih s h

/-- C5, as the code has it: in the receive loop a read error makes `server_thread` call
`exit(-1)`: the process is terminated, `client_connected` and the grid are left as they
were, and no later result is acted on.  Only a zero-length read ends the session alone:
`client_connected` is set to 0 and the next `accept` starts a new session. -/
theorem server_read_error_exits_process (s : Server) (es : List Event)
    (h : s.phase = .receiving) :
    (server_step s (.recv .error)).phase = .exited (-1) ∧
    (server_step s (.recv .error)).client_connected = s.client_connected ∧
    (server_step s (.recv .error)).mem.grid = s.mem.grid ∧
    (server_run (server_step s (.recv .error)) es).phase = .exited (-1) ∧
    (server_step s (.recv .closed)).phase = .accepting ∧
    (server_step s (.recv .closed)).client_connected = 0 ∧
    ∀ client_fd : Int, 0 ≤ client_fd →
      (server_run s [.recv .closed, .accept client_fd]).phase = .receiving ∧
      (server_run s [.recv .closed, .accept client_fd]).client_connected = 1 := by
  have e1 : server_step s (.recv .error) = { s with phase := .exited (-1) } := by
    unfold server_step
    rw [h]
    simp [Recv.read]
  have e2 : server_step s (.recv .closed) = { s with client_connected := 0, phase := .accepting } := by
    unfold server_step
    rw [h]
    simp [Recv.read]
  refine ⟨by rw [e1], by rw [e1], by rw [e1], ?_, by rw [e2], by rw [e2], ?_⟩
  · exact server_run_exited _ es (-1) (by rw [e1])
  · intro client_fd hfd
    have hn : ¬ client_fd < 0 := by omega
    have e3 : server_run s [.recv .closed, .accept client_fd] =
        server_step (server_step s (.recv .closed)) (.accept client_fd) := rfl
    rw [e3, e2]
    simp [server_step, hn]

theorem server_read_error_exits_process_witness :
    (server_run (server_start []) [.accept 5]).phase = .receiving ∧
    ((server_step (server_run (server_start []) [.accept 5]) (.recv .error)).phase =
        .exited (-1) ∧
    (server_step (server_run (server_start []) [.accept 5]) (.recv .error)).client_connected =
        (server_run (server_start []) [.accept 5]).client_connected ∧
    (server_step (server_run (server_start []) [.accept 5]) (.recv .error)).mem.grid =
        (server_run (server_start []) [.accept 5]).mem.grid ∧
    (server_run (server_step (server_run (server_start []) [.accept 5]) (.recv .error))
        [.accept 6]).phase = .exited (-1) ∧
    (server_step (server_run (server_start []) [.accept 5]) (.recv .closed)).phase =
        .accepting ∧
    (server_step (server_run (server_start []) [.accept 5]) (.recv .closed)).client_connected =
        0 ∧
    ∀ client_fd : Int, 0 ≤ client_fd →
      (server_run (server_run (server_start []) [.accept 5])
        [.recv .closed, .accept client_fd]).phase = .receiving ∧
      (server_run (server_run (server_start []) [.accept 5])
        [.recv .closed, .accept client_fd]).client_connected = 1) :=
  ⟨by decide, server_read_error_exits_process _ [.accept 6] (by decide)⟩

/-- C5, as stated, fails: after a connection is accepted and a read fails, the process has
exited with status -1, `client_connected` is still 1, and a further connection is never
accepted. -/
theorem server_read_error_not_recovered :
    (server_run (server_start []) [.accept 5, .recv .error]).phase = .exited (-1) ∧
    (server_run (server_start []) [.accept 5, .recv .error]).client_connected = 1 ∧
    (server_run (server_start []) [.accept 5, .recv .error, .accept 6]).phase ≠ .receiving := by
  decide

/-- C10: with `buf` all NUL at first, a session receives `DEFAULT_FEN` and then the 8 bytes
`88888888`.  The validator is given those 8 bytes and accepts them, but `fen_to_grid(buf)`
reads on to the first NUL and parses `88888888` followed by what the first read left in
`buf`: rows 1 to 7 come from the earlier position, while the 8 bytes alone give 64 empty
cells. -/
theorem server_parses_stale_bytes :
    (server_run (server_start (List.replicate BUFFER_SIZE '\x00'))
      [.accept 5, .recv (.data DEFAULT_FEN), .recv (.data "88888888".toList)]).buf.take 8 =
        "88888888".toList ∧
    fen_regex_matches "88888888".toList = true ∧
    c_string (server_run (server_start (List.replicate BUFFER_SIZE '\x00'))
      [.accept 5, .recv (.data DEFAULT_FEN), .recv (.data "88888888".toList)]).buf =
        some "88888888/pppppppp/8/8/8/8/PPPPPPPP/RNBQKBNR".toList ∧
    (server_run (server_start (List.replicate BUFFER_SIZE '\x00'))
      [.accept 5, .recv (.data DEFAULT_FEN), .recv (.data "88888888".toList)]).mem.cells =
        "XXXXXXXXppppppppXXXXXXXXXXXXXXXXXXXXXXXXXXXXXXXXPPPPPPPPRNBQKBNR".toList ∧
    (run_fen_to_grid "88888888".toList
      (server_run (server_start (List.replicate BUFFER_SIZE '\x00'))
        [.accept 5, .recv (.data DEFAULT_FEN)]).mem).cells = List.replicate 64 'X' := by
  refine ⟨by decide, by decide, by decide, by decide, by decide⟩

/-! ## The validator: the claims -/

theorem re_class_iff (c : Char) :
    re_class c = true ↔ is_valid c = true ∨ is_digit18 c = true := by
  simp only [re_class, is_valid, valid_fen_chars, List.contains_eq_any_beq, List.any_cons,
    List.any_nil, Bool.or_false, Bool.or_eq_true, beq_iff_eq]
  tauto

theorem mem_re_plus {s t : List Char} (h : t ∈ re_plus s) :
    ∃ pre, s = pre ++ t ∧ pre ≠ [] ∧ ∀ c ∈ pre, re_class c = true := by
  induction s with
  | nil => simp [re_plus] at h
  | cons c cs ih =>
    by_cases hc : re_class c = true
    · simp only [re_plus, hc, if_true, List.mem_cons] at h
      rcases h with h1 | h1
      · exact ⟨[c], by simp [h1], by simp, by simpa using hc⟩
      · obtain ⟨pre, e, -, hp⟩ := ih h1
        refine ⟨c :: pre, by simp [e], by simp, ?_⟩
        intro x hx
        rcases List.mem_cons.1 hx with h2 | h2
        · rw [h2]
          exact hc
        · exact hp x h2
    · simp [re_plus, hc] at h

theorem mem_re_opt_slash {s t : List Char} (h : t ∈ re_opt_slash s) :
    s = t ∨ s = '/' :: t := by
  cases s with
  | nil =>
    simp only [re_opt_slash, List.mem_singleton] at h
    exact Or.inl h.symm
  | cons c cs =>
    by_cases hc : c = '/'
    · subst hc
      simp only [re_opt_slash, if_true, List.mem_cons, List.mem_singleton, List.not_mem_nil,
        or_false] at h
      rcases h with h1 | h1
      · exact Or.inr (by rw [h1])
      · exact Or.inl h1.symm
    · simp only [re_opt_slash, hc, if_false, List.mem_singleton] at h
      exact Or.inl h.symm

theorem mem_re_group {s t : List Char} (h : t ∈ re_group s) :
    ∃ pre, s = pre ++ t ∧ (∀ c ∈ pre, re_class c = true ∨ c = '/') ∧
      1 ≤ (pre.filter re_class).length := by
  simp only [re_group, List.mem_flatMap] at h
  obtain ⟨u, hu, ht⟩ := h
  obtain ⟨pre, e, hne, hp⟩ := mem_re_plus hu
  have hlen : 1 ≤ (pre.filter re_class).length := by
    rw [List.filter_eq_self.2 hp]
    cases pre with
    | nil => exact absurd rfl hne
    | cons a l => simp
  rcases mem_re_opt_slash ht with h1 | h1
  · exact ⟨pre, by rw [e, h1], fun c hc => Or.inl (hp c hc), hlen⟩
  · refine ⟨pre ++ ['/'], by rw [e, h1]; simp, ?_, ?_⟩
    · intro c hc
      rcases List.mem_append.1 hc with h2 | h2
      · exact Or.inl (hp c h2)
      · exact Or.inr (by simpa using h2)
    · rw [List.filter_append, List.length_append]
      omega

/-- What the eight groups of the pattern can consume: a prefix made of class characters and
`/` only, holding at least one class character for each group. -/
theorem mem_re_groups {n : Nat} {s t : List Char} (h : t ∈ re_groups n s) :
    ∃ pre, s = pre ++ t ∧ (∀ c ∈ pre, re_class c = true ∨ c = '/') ∧
      n ≤ (pre.filter re_class).length := by
  induction n generalizing s with
  | zero =>
    simp only [re_groups, List.mem_singleton] at h
    exact ⟨[], by simp [h], by simp, by simp⟩
  | succ n ih =>
    simp only [re_groups, List.mem_flatMap] at h
    obtain ⟨u, hu, ht⟩ := h
    obtain ⟨p1, e1, c1, l1⟩ := mem_re_group hu
    obtain ⟨p2, e2, c2, l2⟩ := ih ht
    refine ⟨p1 ++ p2, by rw [e1, e2, List.append_assoc], ?_, ?_⟩
    · intro c hc
      rcases List.mem_append.1 hc with h2 | h2
      · exact c1 c h2
      · exact c2 c h2
    · rw [List.filter_append, List.length_append]
      omega

theorem fen_regex_matches_groups {subject : List Char} (h : fen_regex_matches subject = true) :
    ∃ rest, rest ∈ re_groups 8 subject := by
  simp only [fen_regex_matches, List.any_eq_true, List.mem_flatMap] at h
  obtain ⟨_, ⟨rest, hr, -⟩, -⟩ := h
  exact ⟨rest, hr⟩

theorem cells_of_append (a b : List Char) : cells_of (a ++ b) = cells_of a ++ cells_of b := by
  induction a with
  | nil => simp [cells_of]
  | cons c cs ih =>
    by_cases hs : c = '/'
    · simp [cells_of, hs, ih]
    · simp [cells_of, hs, ih]

theorem length_filter_le_cells_of (pre : List Char)
    (h : ∀ c ∈ pre, re_class c = true ∨ c = '/') :
    (pre.filter re_class).length ≤ (cells_of pre).length := by
  induction pre with
  | nil => simp [cells_of]
  | cons c cs ih =>
    have h2 := ih (fun x hx => h x (List.mem_cons_of_mem _ hx))
    by_cases hs : c = '/'
    · subst hs
      have : re_class '/' = false := by decide
      simp only [List.filter_cons, this, cells_of, if_true]
      simpa using h2
    · have hc : re_class c = true := by
        rcases h c (List.mem_cons_self _ _) with h1 | h1
        · exact h1
        · exact absurd h1 hs
      have h1 : 1 ≤ (char_cells c).length := by
        by_cases hd : is_digit18 c = true
        · rw [length_char_cells_digit hd]
          simp only [is_digit18, Bool.and_eq_true, decide_eq_true_eq] at hd
          omega
        · rw [length_char_cells_other (by simpa using hd)]
      simp only [List.filter_cons, hc, if_true, cells_of, hs, if_false, List.length_cons,
        List.length_append]
      omega

/-- C3, as the code has it: when the validator accepts a buffer, the part its eight groups
match holds only `/`, digits `1`-`8` and the 12 piece letters, so the first loop of
`fen_to_grid` meets no invalid character in it and counts at least 8 cells there; the loop
then goes on, with that count, over the rest of the buffer, which the pattern matches with
`.*` and leaves unchecked. -/
theorem validator_checks_groups_only (buf : List Char) (h : fen_regex_matches buf = true) :
    ∃ pre rest n, buf = pre ++ rest ∧ rest ∈ re_groups 8 buf ∧
      (∀ c ∈ pre, c = '/' ∨ is_digit18 c = true ∨ is_valid c = true) ∧
      8 ≤ n ∧ pass1 pre 0 = .total n ∧ pass1 buf 0 = pass1 rest n := by
  obtain ⟨rest, hr⟩ := fen_regex_matches_groups h
  obtain ⟨pre, e, hc, hl⟩ := mem_re_groups hr
  have hpl : Placement pre := by
    intro c hx
    rcases hc c hx with h1 | h1
    · rcases (re_class_iff c).1 h1 with h2 | h2
      · exact Or.inr (Or.inr h2)
      · exact Or.inr (Or.inl h2)
    · exact Or.inl h1
  refine ⟨pre, rest, (cells_of pre).length, e, hr, hpl, ?_, ?_, ?_⟩
  · exact le_trans hl (length_filter_le_cells_of pre hc)
  · simpa using pass1_of_placement pre 0 hpl
  · have := pass1_append_of_placement pre rest 0 hpl
    rw [← e] at this
    simpa using this

theorem validator_checks_groups_only_witness :
    fen_regex_matches "8/8/8/8/8/8/8/8x".toList = true ∧
    ∃ pre rest n, "8/8/8/8/8/8/8/8x".toList = pre ++ rest ∧
      rest ∈ re_groups 8 "8/8/8/8/8/8/8/8x".toList ∧
      (∀ c ∈ pre, c = '/' ∨ is_digit18 c = true ∨ is_valid c = true) ∧
      8 ≤ n ∧ pass1 pre 0 = .total n ∧ pass1 "8/8/8/8/8/8/8/8x".toList 0 = pass1 rest n :=
  ⟨by decide, validator_checks_groups_only _ (by decide)⟩

/-- C3, as stated, fails: the validator accepts `"8/8/8/8/8/8/8/8x"`, which holds no space
or newline, and the first loop of `fen_to_grid` reaches the invalid-character branch on
its `x`; the receive loop does call `fen_to_grid` on it. -/
theorem validator_accepts_invalid_char :
    fen_regex_matches "8/8/8/8/8/8/8/8x".toList = true ∧
    0 < pcre_exec "8/8/8/8/8/8/8/8x".toList ∧
    ' ' ∉ "8/8/8/8/8/8/8/8x".toList ∧ '\n' ∉ "8/8/8/8/8/8/8/8x".toList ∧
    pass1 "8/8/8/8/8/8/8/8x".toList 0 = .invalid 'x' := by
  decide

/-- C6, as the code has it: a buffer with no `/` that does not begin with at least eight
characters of the class `[prbnqk1-8]` (either case) is rejected by the validator, and the
receive loop leaves the grid as it was. -/
theorem validator_rejects_short_slashless (s : Server) (bytes : List Char)
    (h1 : '/' ∉ bytes) (h2 : (bytes.takeWhile re_class).length < 8)
    (h3 : bytes.length ≤ BUFFER_SIZE) :
    fen_regex_matches bytes = false ∧ pcre_exec bytes ≤ 0 ∧
    (server_step s (.recv (.data bytes))).mem.grid = s.mem.grid ∧
    (server_step s (.recv (.data bytes))).mem.stores = s.mem.stores := by
  have hf : fen_regex_matches bytes = false := by
    by_contra hne
    have ht : fen_regex_matches bytes = true := by simpa using hne
    obtain ⟨rest, hr⟩ := fen_regex_matches_groups ht
    obtain ⟨pre, e, hc, hl⟩ := mem_re_groups hr
    have hall : ∀ c ∈ pre, re_class c = true := by
      intro c hx
      rcases hc c hx with h4 | h4
      · exact h4
      · exfalso
        apply h1
        rw [e, ← h4]
        exact List.mem_append_left _ hx
    have e2 : bytes.takeWhile re_class = pre ++ rest.takeWhile re_class := by
      rw [e, List.takeWhile_append_of_pos hall]
    rw [e2, List.length_append] at h2
    rw [List.filter_eq_self.2 hall] at hl
    omega
  have hp : pcre_exec bytes = -1 := by simp [pcre_exec, hf]
  have hb : (Recv.data bytes).bytes = bytes := by
    simp [Recv.bytes, List.take_of_length_le h3]
  have hrd : (Recv.data bytes).read = (bytes.length : Int) := by
    simp [Recv.read, hb]
  have htk : List.take bytes.length (recv_into s.buf bytes) = bytes := by
    simp [recv_into]
  refine ⟨hf, by rw [hp]; decide, ?_⟩
  unfold server_step
  cases hph : s.phase <;> simp only [hrd, hb]
  · simp
  · by_cases h0 : (bytes.length : Int) = 0
    · simp [h0]
    · have hneg : ¬ (bytes.length : Int) < 0 := by omega
      simp [h0, hneg, htk, hp]
  · simp
  · simp

theorem validator_rejects_short_slashless_witness :
    '/' ∉ "rnbqkbn rnbqkbnr".toList ∧
    ("rnbqkbn rnbqkbnr".toList.takeWhile re_class).length < 8 ∧
    "rnbqkbn rnbqkbnr".toList.length ≤ BUFFER_SIZE ∧
    (fen_regex_matches "rnbqkbn rnbqkbnr".toList = false ∧
      pcre_exec "rnbqkbn rnbqkbnr".toList ≤ 0 ∧
      (server_step (server_run (server_start []) [.accept 5])
        (.recv (.data "rnbqkbn rnbqkbnr".toList))).mem.grid =
          (server_run (server_start []) [.accept 5]).mem.grid ∧
      (server_step (server_run (server_start []) [.accept 5])
        (.recv (.data "rnbqkbn rnbqkbnr".toList))).mem.stores =
          (server_run (server_start []) [.accept 5]).mem.stores) :=
  ⟨by decide, by decide, by decide,
    validator_rejects_short_slashless _ _ (by decide) (by decide) (by decide)⟩

/-- C6, as stated, fails: `"pppppppp"` holds no `/`, yet the validator accepts it, each of
the eight groups matching one letter, and the receive loop calls `fen_to_grid` on it: cell
0 of the grid changes from `'r'` to `'p'`. -/
theorem validator_accepts_slashless :
    '/' ∉ "pppppppp".toList ∧ fen_regex_matches "pppppppp".toList = true ∧
    0 < pcre_exec "pppppppp".toList ∧
    (server_run (server_start (List.replicate BUFFER_SIZE '\x00')) [.accept 5]).mem.grid 0 =
      'r' ∧
    (server_run (server_start (List.replicate BUFFER_SIZE '\x00'))
      [.accept 5, .recv (.data "pppppppp".toList)]).mem.grid 0 = 'p' := by
  decide

end ChessViewer
